import Mathlib

/-!
Verification of the membership-reconciliation engine of the
terraform-provider-slack repository (resource_conversation_members.go and
its sibling revisions). Go strings are modelled as `List Char`, remote
identifiers as `String`, and every remote capability (user lookup,
conversation listing, invite/kick calls) as an explicit oracle argument,
so that each embedded function is a pure Lean function mirroring the Go
control flow statement by statement.
-/

namespace Slack

/-! ## Go string primitives -/

/-- Embedding of Go `strings.SplitAfter(s, sep)` for a one-character
separator: splits after each occurrence of `c`, always returning at least
one piece (`SplitAfter("", ":") = [""]`). -/
def splitAfterChar (c : Char) : List Char → List (List Char)
  | [] => [[]]
  | x :: xs =>
    if x = c then [x] :: splitAfterChar c xs
    else (x :: (splitAfterChar c xs).headD []) :: (splitAfterChar c xs).tail

/-- Whether `s` starts with `pat` (Go `strings.HasPrefix pat`-check used to
build `strings.Contains`). -/
def leadsWith : List Char → List Char → Bool
  | [], _ => true
  | _ :: _, [] => false
  | p :: ps, x :: xs => p = x && leadsWith ps xs

/-- Embedding of Go `strings.Contains(s, pat)`. -/
def containsSub : List Char → List Char → Bool
  | [], pat => pat.isEmpty
  | x :: xs, pat => leadsWith pat (x :: xs) || containsSub xs pat

theorem splitAfterChar_ne_nil (c : Char) (l : List Char) :
    splitAfterChar c l ≠ [] := by
  cases l with
  | nil => simp [splitAfterChar]
  | cons x xs =>
    simp only [splitAfterChar]
    split <;> simp

theorem splitAfterChar_length_pos (c : Char) (l : List Char) :
    0 < (splitAfterChar c l).length :=
  List.length_pos.mpr (splitAfterChar_ne_nil c l)

/-- The split has a second piece exactly when the separator occurs in the
string: this is the condition under which Go's `SplitAfter(s, ":")[1]`
does not abort with an index-out-of-range run-time error. -/
theorem two_le_splitAfterChar_length (c : Char) (l : List Char) :
    2 ≤ (splitAfterChar c l).length ↔ c ∈ l := by
  induction l with
  | nil => simp [splitAfterChar]
  | cons x xs ih =>
    by_cases hx : x = c
    · subst hx
      constructor
      · intro _; exact List.mem_cons_self x xs
      · intro _
        have hpos := splitAfterChar_length_pos x xs
        have hrw : splitAfterChar x (x :: xs) = [x] :: splitAfterChar x xs := by
          simp [splitAfterChar]
        rw [hrw, List.length_cons]
        omega
    · simp only [splitAfterChar, if_neg hx, List.length_cons, List.mem_cons]
      have hne := splitAfterChar_ne_nil c xs
      obtain ⟨y, ys, hys⟩ := List.exists_cons_of_ne_nil hne
      rw [hys] at ih ⊢
      simp only [List.length_cons, List.tail_cons] at ih ⊢
      constructor
      · intro h; exact Or.inr (ih.mp (by omega))
      · intro h
        rcases h with h | h
        · exact absurd h.symm hx
        · have := ih.mpr h; omega

/-! ## Identity resolution (getUserInfo and its revisions) -/

/-- A directory entry as used by the resolver (`slack.User`: `ID`, `Name`,
`IsBot`). -/
structure DirUser where
  uid : List Char
  uname : List Char
  isbot : Bool
deriving DecidableEq, Repr

/-- Outcome of a `getUserInfo` call.  `panics` models the Go run-time
abort of `strings.SplitAfter(userExpression, ":")[1]` on a one-element
split result; `result` wraps the value returned from a directory lookup;
`unsupported` is the typed "only ... member expressions are supported"
error; `nilnil` is the anomalous `return nil, err` with a nil `err`
taken by the bot branch when `GetUsers` succeeds. -/
inductive GUIRes where
  | panics
  | result (r : Except (List Char) DirUser)
  | unsupported
  | nilnil
deriving Repr

/-- Result pair of Go `api.GetUsers()`: the slice of users together with
the error value (`none` = nil error).  The slack client returns a nil
slice alongside a non-nil error. -/
structure GoUsers where
  users : List DirUser
  errv : Option (List Char)

/-- The bot-matching inner loop of `getUserInfo`'s `bot:` branch: skip
non-bots, return the first bot whose name equals the identifier. -/
def findFirstBot (uid : List Char) : List DirUser → Option DirUser
  | [] => none
  | u :: us => if u.isbot ∧ u.uname = uid then some u else findFirstBot uid us

/-- Embedding of `getUserInfo` from the revision supporting `email:`,
`id:` and `bot:` expressions (resource_conversation_members.go, first
revision, lines 49-74).  `byEmail`/`byId` are `api.GetUserByEmail` /
`api.GetUserInfo`; `gu` is the result of `api.GetUsers()`.  The source
branches on `err != nil` when deciding whether to enumerate `users`,
and its `else` branch returns `nil, err` with a nil `err`. -/
def getUserInfoV1 (byEmail byId : List Char → Except (List Char) DirUser)
    (gu : GoUsers) (e : List Char) : GUIRes :=
  if (splitAfterChar ':' e).length < 2 then .panics
  else
    let uid := ((splitAfterChar ':' e).get? 1).getD []
    if containsSub e ("email:".toList) then .result (byEmail uid)
    else if containsSub e ("id:".toList) then .result (byId uid)
    else if containsSub e ("bot:".toList) then
      match gu.errv with
      | some _ =>
        match findFirstBot uid gu.users with
        | some u => .result (byId u.uid)
        | none => .unsupported
      | none => .nilnil
    else .unsupported

/-- Embedding of `getUserInfo` from the revision supporting only `email:`
and `id:` (resource_conversation_members.go, last revision, lines
490-499). -/
def getUserInfoS3 (byEmail byId : List Char → Except (List Char) DirUser)
    (e : List Char) : GUIRes :=
  if (splitAfterChar ':' e).length < 2 then .panics
  else
    let uid := ((splitAfterChar ':' e).get? 1).getD []
    if containsSub e ("email:".toList) then .result (byEmail uid)
    else if containsSub e ("id:".toList) then .result (byId uid)
    else .unsupported

/-- A lookup oracle that always fails; used to instantiate resolver
theorems at concrete inputs. -/
def oracleFail : List Char → Except (List Char) DirUser := fun _ => .error []

/-- C10: for every member expression containing no ':' separator,
`getUserInfo` aborts with the out-of-range run-time error of
`SplitAfter(...)[1]` instead of returning the typed unsupported-kind
error; the typed error is reachable only for expressions that do contain
':' and match neither the `email:` nor the `id:` kind. -/
theorem c10_missing_separator (be bi : List Char → Except (List Char) DirUser)
    (e : List Char) :
    (¬ ':' ∈ e → getUserInfoS3 be bi e = GUIRes.panics)
    ∧ (getUserInfoS3 be bi e = GUIRes.unsupported →
        ':' ∈ e ∧ containsSub e ("email:".toList) = false
          ∧ containsSub e ("id:".toList) = false) := by
  constructor
  · intro h
    have hlen : (splitAfterChar ':' e).length < 2 := by
      have := (two_le_splitAfterChar_length ':' e).not.mpr h
      omega
    simp [getUserInfoS3, hlen]
  · intro h
    unfold getUserInfoS3 at h
    split at h
    · exact absurd h (by simp)
    · rename_i hlen
      have hmem : ':' ∈ e := (two_le_splitAfterChar_length ':' e).mp (by omega)
      split at h
      · exact absurd h (by simp)
      · split at h
        · exact absurd h (by simp)
        · rename_i h1 h2
          exact ⟨hmem, by simpa using h1, by simpa using h2⟩

/-- Witness for C10 at the concrete separator-free expression "abc". -/
theorem c10_missing_separator_witness :
    (¬ ':' ∈ ("abc".toList)) ∧
      getUserInfoS3 oracleFail oracleFail ("abc".toList) = GUIRes.panics :=
  ⟨by decide, (c10_missing_separator oracleFail oracleFail ("abc".toList)).1 (by decide)⟩

/-- The bot used to exercise the `bot:` resolution path. -/
def buildBot : DirUser := ⟨"B1".toList, "buildbot".toList, true⟩

/-- C9 (failing evaluation): with a *successful* directory listing
containing a bot whose name matches exactly, the `bot:` branch returns
the anomalous nil-user/nil-error pair instead of enumerating the listing
and resolving the bot; and with a *failed* listing, the branch falls
through to the generic unsupported-expression error instead of
returning the listing failure.  The `err != nil` condition guarding the
enumeration is inverted. -/
theorem c9_bot_resolution_eval :
    getUserInfoV1 oracleFail oracleFail ⟨[buildBot], none⟩ ("bot:buildbot".toList)
        = GUIRes.nilnil
    ∧ getUserInfoV1 oracleFail oracleFail ⟨[], some ("api_failure".toList)⟩
        ("bot:buildbot".toList) = GUIRes.unsupported :=
  ⟨rfl, rfl⟩

/-! ## Engine data model

At the set-diff level the engine works on canonical identifiers
(`String`) and resolved users; `getUserInfo`'s behaviour (including its
remote calls) is abstracted as a resolution oracle of type
`String → Except String SlackUser`. -/

/-- A resolved directory user (`slack.User`) as used by the diff and
mutation code: only `ID` and `Name` are read there. -/
structure SlackUser where
  ID : String
  Name : String
deriving DecidableEq, Repr

/-- A conversation (`slack.Channel`): only `ID` and `Name` are read by
the membership code. -/
structure Channel where
  ID : String
  Name : String
deriving DecidableEq, Repr

/-- Go's byte-wise lexicographic string order, on character lists. -/
def charListLe : List Char → List Char → Bool
  | [], _ => true
  | _ :: _, [] => false
  | a :: as, b :: bs =>
    if a.val < b.val then true
    else if b.val < a.val then false
    else charListLe as bs

/-- Go string comparison `a <= b`. -/
def strLe (a b : String) : Bool := charListLe a.data b.data

/-- Insertion step of `sort.Strings`. -/
def insertStr (a : String) : List String → List String
  | [] => [a]
  | b :: bs => if strLe a b then a :: b :: bs else b :: insertStr a bs

/-- Embedding of Go `sort.Strings` (ascending lexicographic sort). -/
def sortStrings (l : List String) : List String := l.foldr insertStr []

/-- Ascending order of a string list, in Go's string order. -/
def sortedAsc (l : List String) : Prop :=
  List.Sorted (fun a b : String => strLe a b = true) l

/-- A resolution oracle that maps every expression to a user whose `ID`
is the expression itself; used to instantiate theorems at concrete
inputs. -/
def lookupOk : String → Except String SlackUser := fun s => Except.ok ⟨s, s⟩

/-! ## C1: the AddSet computation before inviting -/

/-- The inner loop of `conversationMembersIDToInvite`
(resource_conversation_members.go, first revision, lines 84-91): for a
resolved user id and the conversation's current member list, iterate
with index; `continue` on a match, and append the user id when the
index reaches the end of the list. -/
def inviteInnerV1 (uid : String) (membersC : List String) : List String :=
  membersC.enum.foldl
    (fun acc p =>
      if uid = p.2 then acc
      else if p.1 = membersC.length - 1 then acc ++ [uid]
      else acc) []

/-- Embedding of `conversationMembersIDToInvite`
(resource_conversation_members.go, first revision, lines 76-95): resolve
each member expression, run the inner loop against the current member
list, and sort the accumulated ids. -/
def conversationMembersIDToInvite (resolve : String → Except String SlackUser)
    (cMembers : List String) (userExpressions : List String) :
    Except String (List String) := do
  let l ← userExpressions.foldlM (fun acc uE => do
    let user ← resolve uE
    pure (acc ++ inviteInnerV1 user.ID cMembers)) []
  pure (sortStrings l)

/-- C1 (failing evaluation): with desired set {U1} and current members
[U1, U2], the computed AddSet is {U1} although U1 is already a member
(it is matched at a non-last position, and the `continue` pattern still
appends it at the last index); and with an empty current member list the
computed AddSet is empty although the desired member is absent.  The
claimed `AddSet = DesiredSet - CurrentSet` therefore fails in both
directions. -/
theorem c1_addset_eval :
    conversationMembersIDToInvite lookupOk ["U1", "U2"] ["U1"]
        = Except.ok ["U1"]
    ∧ "U1" ∈ ["U1", "U2"]
    ∧ conversationMembersIDToInvite lookupOk [] ["U1"] = Except.ok [] :=
  ⟨rfl, by decide, rfl⟩

/-! ## The break-scan pattern

The later revisions express "needle is absent from the scanned list" as
an index-bounded inner loop: `break` on a match, and act when the index
reaches the end of the list.  `scanAbsent key needle l i n` is that
inner loop, started at index `i` with `n` the total length. -/

/-- The inner loop shared by `getUsersToKickAuthoritative` and the
additive kick computation: scan `l`, `break` (return `false`) on a
match of `key a` with `needle`, and return `true` when the last index is
reached without a match. -/
def scanAbsent {α : Type} (key : α → String) (needle : String) :
    List α → Nat → Nat → Bool
  | [], _, _ => false
  | a :: rest, i, n =>
    if key a = needle then false
    else if i = n - 1 then true
    else scanAbsent key needle rest (i + 1) n

/-- One-step unfolding of `scanAbsent` on a cons cell. -/
theorem scanAbsent_cons_eq {α : Type} (key : α → String) (needle : String)
    (a : α) (rest : List α) (i n : Nat) :
    scanAbsent key needle (a :: rest) i n
      = if key a = needle then false
        else if i = n - 1 then true
        else scanAbsent key needle rest (i + 1) n := rfl

theorem scanAbsent_aux_spec {α : Type} (key : α → String) (needle : String) :
    ∀ (l : List α) (i : Nat),
      (scanAbsent key needle l i (i + l.length) = true
        ↔ (l ≠ [] ∧ needle ∉ l.map key)) := by
  intro l
  induction l with
  | nil => intro i; simp [scanAbsent]
  | cons a rest ih =>
    intro i
    rw [scanAbsent_cons_eq]
    by_cases hk : key a = needle
    · rw [if_pos hk]
      simp only [Bool.false_eq_true, false_iff, not_and]
      intro _
      intro hmem
      exact hmem (hk ▸ List.mem_map_of_mem key (List.mem_cons_self a rest))
    · rw [if_neg hk]
      cases rest with
      | nil =>
        rw [if_pos (by simp)]
        simp [Ne.symm hk]
      | cons b rest2 =>
        rw [if_neg (show ¬ i = i + (a :: b :: rest2).length - 1 by
          simp only [List.length_cons]; omega)]
        have hstep : i + (a :: b :: rest2).length = (i + 1) + (b :: rest2).length := by
          simp only [List.length_cons]; omega
        rw [hstep, ih (i + 1)]
        simp [Ne.symm hk]

/-- `scanAbsent` started at index 0 decides exactly "the scanned list is
non-empty and the needle is absent from its keys". -/
theorem scanAbsent_spec {α : Type} (key : α → String) (needle : String)
    (l : List α) :
    scanAbsent key needle l 0 l.length = true ↔ (l ≠ [] ∧ needle ∉ l.map key) := by
  have := scanAbsent_aux_spec key needle l 0
  simpa using this

/-! ## C2 and C3: the kick-list computations of the final revision -/

/-- One iteration of the outer kick-list loops: when the break-scan `q`
reports the element absent, resolve it through `g` (propagating the
error) and append the resolved user to the accumulator. -/
def scanKickBody (q : String → Bool) (g : String → Except String SlackUser)
    (acc : List SlackUser) (x : String) : Except String (List SlackUser) :=
  if q x then do
    let u ← g x
    pure (acc ++ [u])
  else pure acc

theorem scanKickBody_foldlM (q : String → Bool) (g : String → Except String SlackUser)
    (l : List String) : ∀ acc : List SlackUser,
    l.foldlM (scanKickBody q g) acc
      = ((l.filter q).mapM g).map (fun ks => acc ++ ks) := by
  induction l with
  | nil =>
    intro acc
    have h0 : ((List.filter q []).mapM g).map (fun ks => acc ++ ks)
        = Except.ok (acc ++ []) := rfl
    rw [h0, List.append_nil]
    rfl
  | cons x xs ih =>
    intro acc
    rw [List.foldlM_cons]
    cases hq : q x with
    | false =>
      have hbody : scanKickBody q g acc x = pure acc := by
        simp [scanKickBody, hq]
      have hfil : (x :: xs).filter q = xs.filter q := by
        simp [List.filter_cons, hq]
      rw [hbody, pure_bind, hfil]
      exact ih acc
    | true =>
      have hfil : (x :: xs).filter q = x :: xs.filter q := by
        simp [List.filter_cons, hq]
      cases hgx : g x with
      | error e =>
        have hbody : scanKickBody q g acc x = Except.error e := by
          simp [scanKickBody, hq, hgx, Bind.bind, Except.bind]
        rw [hbody, hfil, List.mapM_cons, hgx]
        rfl
      | ok u =>
        have hbody : scanKickBody q g acc x = Except.ok (acc ++ [u]) := by
          simp only [scanKickBody, hq, if_true, hgx]
          rfl
        rw [hbody, hfil, List.mapM_cons, hgx]
        show xs.foldlM (scanKickBody q g) (acc ++ [u])
            = ((xs.filter q).mapM g >>= fun t => pure (u :: t)).map
                (fun ks => acc ++ ks)
        rw [ih (acc ++ [u])]
        cases hmx : (xs.filter q).mapM g with
        | error e2 => rfl
        | ok ks =>
          show Except.ok (acc ++ [u] ++ ks) = Except.ok (acc ++ u :: ks)
          rw [List.append_assoc]
          rfl

/-- Embedding of `getUsersToKickAuthoritative`
(resource_conversation_members.go, final revision, lines 501-528).
`lookup` is `api.GetUserInfo`; `snapshot` is the result of
`api.GetUsersInConversation`; the error-message wrapping of the source
is elided.  For each conversation member, the inner loop over
`managedUsers` breaks on an `ID` match and, when the index reaches the
end of the managed list without a match, fetches the member and appends
it to the intruder list. -/
def getUsersToKickAuthoritative (lookup : String → Except String SlackUser)
    (snapshot : Except String (List String)) (managedUsers : List SlackUser) :
    Except String (List SlackUser) := do
  let conversationMembers ← snapshot
  conversationMembers.foldlM
    (scanKickBody
      (fun cmId => scanAbsent SlackUser.ID cmId managedUsers 0 managedUsers.length)
      lookup) []

/-- Embedding of the non-authoritative branch of
`resourceConversationMembersUpdate` (resource_conversation_members.go,
final revision, lines 728-745): for each previously recorded member
expression, the inner loop over the new expression list breaks on
(deep-)equality and, when the index reaches the end of the new list
without a match, resolves the old expression and appends the user to
the kick list. -/
def usersToKickAdditive (resolve : String → Except String SlackUser)
    (oldMembers newMembers : List String) : Except String (List SlackUser) :=
  oldMembers.foldlM
    (scanKickBody
      (fun o => scanAbsent (fun s => s) o newMembers 0 newMembers.length)
      resolve) []

theorem exceptMap_nil_append (r : Except String (List SlackUser)) :
    r.map (fun ks => ([] : List SlackUser) ++ ks) = r := by
  cases r <;> rfl

/-- A successful `mapM` over a coherent lookup returns users whose ids
are exactly the looked-up ids, in order. -/
theorem mapM_ok_ids (lookup : String → Except String SlackUser)
    (hcoh : ∀ cm u, lookup cm = Except.ok u → u.ID = cm) :
    ∀ (l : List String) (ks : List SlackUser),
      l.mapM lookup = Except.ok ks → ks.map SlackUser.ID = l := by
  intro l
  induction l with
  | nil =>
    intro ks h
    have h2 : Except.ok ([] : List SlackUser) = Except.ok ks := h
    injection h2 with h3
    rw [← h3]
    rfl
  | cons x xs ih =>
    intro ks h
    rw [List.mapM_cons] at h
    cases hlx : lookup x with
    | error e => rw [hlx] at h; exact Except.noConfusion h
    | ok u =>
      rw [hlx] at h
      cases hmx : xs.mapM lookup with
      | error e => rw [hmx] at h; exact Except.noConfusion h
      | ok t =>
        rw [hmx] at h
        have h2 : Except.ok (u :: t) = Except.ok ks := h
        injection h2 with h3
        rw [← h3, List.map_cons, hcoh x u hlx, ih t hmx]

/-- Every user in a successful `mapM` result comes from some input that
resolves to it. -/
theorem mapM_ok_mem (g : String → Except String SlackUser) :
    ∀ (l : List String) (ks : List SlackUser),
      l.mapM g = Except.ok ks → ∀ u ∈ ks, ∃ o, o ∈ l ∧ g o = Except.ok u := by
  intro l
  induction l with
  | nil =>
    intro ks h u hu
    have h2 : Except.ok ([] : List SlackUser) = Except.ok ks := h
    injection h2 with h3
    rw [← h3] at hu
    exact absurd hu (List.not_mem_nil u)
  | cons x xs ih =>
    intro ks h u hu
    rw [List.mapM_cons] at h
    cases hlx : g x with
    | error e => rw [hlx] at h; exact Except.noConfusion h
    | ok u0 =>
      rw [hlx] at h
      cases hmx : xs.mapM g with
      | error e => rw [hmx] at h; exact Except.noConfusion h
      | ok t =>
        rw [hmx] at h
        have h2 : Except.ok (u0 :: t) = Except.ok ks := h
        injection h2 with h3
        rw [← h3] at hu
        rcases List.mem_cons.mp hu with hu0 | hut
        · exact ⟨x, List.mem_cons_self x xs, hu0 ▸ hlx⟩
        · obtain ⟨o, ho, hgo⟩ := ih t hmx u hut
          exact ⟨o, List.mem_cons_of_mem x ho, hgo⟩

/-- C2: under authoritative policy the kick list computed by
`getUsersToKickAuthoritative` is exactly the list of conversation
members absent from the managed (desired) set — the set difference
CurrentSet - DesiredSet — and every kicked identifier is drawn from the
conversation membership, never from the managed set.  The hypotheses
are the schema's `MinItems: 1` guarantee (at least one managed user)
and directory coherence (`GetUserInfo` returns the requested id). -/
theorem c2_authoritative_kick (lookup : String → Except String SlackUser)
    (C : List String) (mus : List SlackUser) (hm : mus ≠ [])
    (hcoh : ∀ cm u, lookup cm = Except.ok u → u.ID = cm) :
    getUsersToKickAuthoritative lookup (Except.ok C) mus
        = (C.filter fun cm => decide (cm ∉ mus.map SlackUser.ID)).mapM lookup
    ∧ ∀ ks, getUsersToKickAuthoritative lookup (Except.ok C) mus = Except.ok ks →
        ∀ x, x ∈ ks.map SlackUser.ID ↔ (x ∈ C ∧ x ∉ mus.map SlackUser.ID) := by
  have hpred : ∀ cm, scanAbsent SlackUser.ID cm mus 0 mus.length
      = decide (cm ∉ mus.map SlackUser.ID) := by
    intro cm
    by_cases hmem : cm ∈ mus.map SlackUser.ID
    · have h1 : scanAbsent SlackUser.ID cm mus 0 mus.length = false := by
        cases hs : scanAbsent SlackUser.ID cm mus 0 mus.length with
        | false => rfl
        | true => exact absurd hmem ((scanAbsent_spec _ _ _).mp hs).2
      rw [h1]; simp [hmem]
    · have h2 : scanAbsent SlackUser.ID cm mus 0 mus.length = true :=
        (scanAbsent_spec _ _ _).mpr ⟨hm, hmem⟩
      rw [h2]; simp [hmem]
  have hmain : getUsersToKickAuthoritative lookup (Except.ok C) mus
      = (C.filter fun cm => decide (cm ∉ mus.map SlackUser.ID)).mapM lookup := by
    show C.foldlM
        (scanKickBody
          (fun cmId => scanAbsent SlackUser.ID cmId mus 0 mus.length) lookup) []
      = _
    rw [scanKickBody_foldlM]
    rw [List.filter_congr (fun x _ => hpred x)]
    exact exceptMap_nil_append _
  refine ⟨hmain, ?_⟩
  intro ks hks x
  rw [hmain] at hks
  rw [mapM_ok_ids lookup hcoh _ ks hks]
  simp [List.mem_filter]

/-- C3: under additive (non-authoritative) policy the kick list of an
update pass is exactly the resolution of PreviousDesiredSet -
NewDesiredSet (the previously recorded member expressions absent from
the new expression list), and every kicked user arises from some
previously declared expression that is no longer declared — a member
never declared is never kicked, and an expression still declared is
never kicked.  The hypothesis is the schema's `MinItems: 1` guarantee
on the new member list. -/
theorem c3_additive_kick (resolve : String → Except String SlackUser)
    (oldM newM : List String) (hn : newM ≠ []) :
    usersToKickAdditive resolve oldM newM
        = (oldM.filter fun o => decide (o ∉ newM)).mapM resolve
    ∧ ∀ ks u, usersToKickAdditive resolve oldM newM = Except.ok ks → u ∈ ks →
        ∃ o, o ∈ oldM ∧ o ∉ newM ∧ resolve o = Except.ok u := by
  have hpred : ∀ o, scanAbsent (fun s => s) o newM 0 newM.length
      = decide (o ∉ newM) := by
    intro o
    by_cases hmem : o ∈ newM
    · have h1 : scanAbsent (fun s => s) o newM 0 newM.length = false := by
        cases hs : scanAbsent (fun s => s) o newM 0 newM.length with
        | false => rfl
        | true =>
          exact absurd (by simpa using hmem) ((scanAbsent_spec _ _ _).mp hs).2
      rw [h1]; simp [hmem]
    · have h2 : scanAbsent (fun s => s) o newM 0 newM.length = true :=
        (scanAbsent_spec _ _ _).mpr ⟨hn, by simpa using hmem⟩
      rw [h2]; simp [hmem]
  have hmain : usersToKickAdditive resolve oldM newM
      = (oldM.filter fun o => decide (o ∉ newM)).mapM resolve := by
    show oldM.foldlM
        (scanKickBody
          (fun o => scanAbsent (fun s => s) o newM 0 newM.length) resolve) []
      = _
    rw [scanKickBody_foldlM]
    rw [List.filter_congr (fun x _ => hpred x)]
    exact exceptMap_nil_append _
  refine ⟨hmain, ?_⟩
  intro ks u hks hu
  rw [hmain] at hks
  obtain ⟨o, ho, hgo⟩ := mapM_ok_mem resolve _ ks hks u hu
  have hof := List.mem_filter.mp ho
  exact ⟨o, hof.1, by simpa using hof.2, hgo⟩

/-- Witness for C2 at current members [U1, U2] and managed set {U2}:
the kick list is exactly the resolution of [U1]. -/
theorem c2_authoritative_kick_witness :
    getUsersToKickAuthoritative lookupOk (Except.ok ["U1", "U2"])
        [⟨"U2", "n2"⟩]
      = ((["U1", "U2"].filter fun cm =>
            decide (cm ∉ ([⟨"U2", "n2"⟩] : List SlackUser).map SlackUser.ID)).mapM
          lookupOk) :=
  (c2_authoritative_kick lookupOk ["U1", "U2"] [⟨"U2", "n2"⟩] (by simp)
    (fun cm u h => by injection h with h2; rw [← h2])).1

/-- Witness for C3 at the spec's shrink scenario: previous desired
[id:U1, id:U2], new desired [id:U1]: exactly id:U2 is resolved and
kicked. -/
theorem c3_additive_kick_witness :
    usersToKickAdditive lookupOk ["id:U1", "id:U2"] ["id:U1"]
      = ((["id:U1", "id:U2"].filter fun o =>
            decide (o ∉ ["id:U1"])).mapM lookupOk) :=
  (c3_additive_kick lookupOk ["id:U1", "id:U2"] ["id:U1"] (by simp)).1

/-! ## Remote-state semantics of the mutation executor

For the temporal and idempotence claims the remote conversation is
modelled as a list of member ids, and each executor call is an event
recording the remote call made and whether it changed remote state
(`eff = false` is the absorbed already-satisfied case:
`already_in_channel`, `not_in_channel`, a no-op self join/leave).
`self` is the acting principal (the API token owner): inviting it
yields `cant_invite_self` and a `JoinConversation` call, kicking it
yields `cant_kick_self` and a `LeaveConversation` call, exactly as in
`inviteUsers` / `kickUsers` of the final revision. -/

/-- A remote mutation call with its effectiveness. -/
inductive MutEv where
  | invite (u : String) (eff : Bool)
  | selfJoin (eff : Bool)
  | kick (u : String) (eff : Bool)
  | selfLeave (eff : Bool)
deriving DecidableEq, Repr

/-- Did the call change remote state? -/
def effEv : MutEv → Bool
  | .invite _ b => b
  | .selfJoin b => b
  | .kick _ b => b
  | .selfLeave b => b

/-- Add-direction calls (`InviteUsersToConversation`, `JoinConversation`). -/
def isAddEv : MutEv → Bool
  | .invite _ _ => true
  | .selfJoin _ => true
  | _ => false

/-- Remove-direction calls (`KickUserFromConversation`, `LeaveConversation`). -/
def isRemoveEv : MutEv → Bool
  | .kick _ _ => true
  | .selfLeave _ => true
  | _ => false

/-- One iteration of `inviteUsers` (final revision, lines 586-601): an
invite call per managed user; `cant_invite_self` is answered by a
single join call; `already_in_channel` is absorbed. -/
def inviteOne (self : String) (s : List String) (u : String) :
    List String × List MutEv :=
  if u = self then
    if self ∈ s then (s, [MutEv.invite u false, MutEv.selfJoin false])
    else (self :: s, [MutEv.invite u false, MutEv.selfJoin true])
  else if u ∈ s then (s, [MutEv.invite u false])
  else (u :: s, [MutEv.invite u true])

/-- `inviteUsers` over a managed-user list: sequential per-identifier
invite calls threading the remote state. -/
def inviteUsersS (self : String) : List String → List String → List String × List MutEv
  | s, [] => (s, [])
  | s, u :: us =>
    let p := inviteOne self s u
    let q := inviteUsersS self p.1 us
    (q.1, p.2 ++ q.2)

/-- One iteration of `kickUsers` (final revision, lines 531-558): a kick
call per user; `cant_kick_self` is answered by a leave call;
`not_in_channel` and its siblings are absorbed. -/
def kickOne (self : String) (s : List String) (u : String) :
    List String × List MutEv :=
  if u = self then
    if self ∈ s then
      (s.filter (fun x => x ≠ self), [MutEv.kick u false, MutEv.selfLeave true])
    else (s, [MutEv.kick u false, MutEv.selfLeave false])
  else if u ∈ s then (s.filter (fun x => x ≠ u), [MutEv.kick u true])
  else (s, [MutEv.kick u false])

/-- `kickUsers` over a kick list: sequential per-identifier kick calls
threading the remote state. -/
def kickUsersS (self : String) : List String → List String → List String × List MutEv
  | s, [] => (s, [])
  | s, u :: us =>
    let p := kickOne self s u
    let q := kickUsersS self p.1 us
    (q.1, p.2 ++ q.2)

/-- The authoritative kick-list computation of the final revision at the
identifier level (`getUsersToKickAuthoritative` with a coherent
directory): for each conversation member, the break-scan over the
managed ids decides whether it is an intruder. -/
def kickListAuthS (s managed : List String) : List String :=
  s.foldl (fun acc cm =>
    if scanAbsent (fun x => x) cm managed 0 managed.length then acc ++ [cm]
    else acc) []

/-- The additive kick-list computation of
`resourceConversationMembersUpdate` (final revision, lines 728-745) at
the identifier level: previously recorded entries absent from the new
list. -/
def additiveKickListS (oldE newE : List String) : List String :=
  oldE.foldl (fun acc o =>
    if scanAbsent (fun x => x) o newE 0 newE.length then acc ++ [o]
    else acc) []

/-- `resourceConversationMembersUpdate` (final revision, lines 711-763)
as a state transformer: compute the kick list under the active policy,
kick (guarded by the source's non-empty check), then invite all managed
users, returning the final remote state and the ordered call trace. -/
def updatePassS (auth : Bool) (self : String) (managed oldE newE s : List String) :
    List String × List MutEv :=
  let kl := if auth then kickListAuthS s managed else additiveKickListS oldE newE
  let p := if 0 < kl.length then kickUsersS self s kl else (s, [])
  let q := inviteUsersS self p.1 managed
  (q.1, p.2 ++ q.2)

/-- `resourceConversationMembersCreate` (final revision, lines 676-709)
as a state transformer: invite all managed users, then, under
authoritative policy, compute the kick list from the refreshed state
and kick. -/
def createPassS (auth : Bool) (self : String) (managed s : List String) :
    List String × List MutEv :=
  let p := inviteUsersS self s managed
  if auth then
    let kl := kickListAuthS p.1 managed
    let q := kickUsersS self p.1 kl
    (q.1, p.2 ++ q.2)
  else p

/-- The deduplicating union of previous and new member expressions built
by `resourceConversationMembersDelete` (final revision, lines 774-788):
all previous entries, then the new entries not already present. -/
def deleteKeys (oldE newE : List String) : List String :=
  oldE ++ newE.foldl (fun acc n => if n ∈ oldE ∨ n ∈ acc then acc else acc ++ [n]) []

/-- `resourceConversationMembersDelete` (final revision, lines 765-804)
as a state transformer: kick every member of the previous/new union. -/
def deletePassS (self : String) (s : List String) (oldE newE : List String) :
    List String × List MutEv :=
  kickUsersS self s (deleteKeys oldE newE)

/-! ### State lemmas for the executor model -/

theorem inviteOne_state_mem (self : String) (s : List String) (u x : String) :
    x ∈ (inviteOne self s u).1 ↔ (x ∈ s ∨ x = u) := by
  unfold inviteOne
  split_ifs with h1 h2 h3
  · constructor
    · exact Or.inl
    · rintro (hx | rfl)
      · exact hx
      · rw [h1]; exact h2
  · rw [h1]
    simp [List.mem_cons, or_comm]
  · constructor
    · exact Or.inl
    · rintro (hx | rfl)
      · exact hx
      · exact h3
  · simp [List.mem_cons, or_comm]

theorem inviteUsersS_state_mem (self : String) :
    ∀ (us s : List String) (x : String),
      x ∈ (inviteUsersS self s us).1 ↔ (x ∈ s ∨ x ∈ us) := by
  intro us
  induction us with
  | nil => intro s x; simp [inviteUsersS]
  | cons u us ih =>
    intro s x
    simp only [inviteUsersS]
    rw [ih]
    rw [inviteOne_state_mem]
    simp [List.mem_cons]
    tauto

theorem inviteOne_already (self : String) (s : List String) (u : String)
    (h : u ∈ s) :
    (inviteOne self s u).1 = s ∧ (inviteOne self s u).2.filter effEv = [] := by
  unfold inviteOne
  split_ifs with h1 h2
  · exact ⟨rfl, by simp [effEv]⟩
  · exact absurd (h1 ▸ h) h2
  · exact ⟨rfl, by simp [effEv]⟩

theorem inviteUsersS_all_ineffective (self : String) :
    ∀ (us s : List String), (∀ u ∈ us, u ∈ s) →
      (inviteUsersS self s us).1 = s
        ∧ (inviteUsersS self s us).2.filter effEv = [] := by
  intro us
  induction us with
  | nil => intro s _; exact ⟨rfl, rfl⟩
  | cons u us ih =>
    intro s hall
    have hu : u ∈ s := hall u (List.mem_cons_self u us)
    have h1 := inviteOne_already self s u hu
    simp only [inviteUsersS]
    rw [h1.1]
    have h2 := ih s (fun v hv => hall v (List.mem_cons_of_mem u hv))
    constructor
    · exact h2.1
    · rw [List.filter_append, h1.2, h2.2]
      rfl

theorem kickOne_state_mem (self : String) (s : List String) (u x : String) :
    x ∈ (kickOne self s u).1 ↔ (x ∈ s ∧ x ≠ u) := by
  unfold kickOne
  split_ifs with h1 h2 h3
  · rw [h1]
    simp [List.mem_filter]
  · constructor
    · intro hx
      refine ⟨hx, ?_⟩
      rintro rfl
      exact h2 (h1 ▸ hx)
    · exact And.left
  · simp [List.mem_filter]
  · constructor
    · intro hx
      refine ⟨hx, ?_⟩
      rintro rfl
      exact h3 hx
    · exact And.left

theorem kickUsersS_state_mem (self : String) :
    ∀ (ks s : List String) (x : String),
      x ∈ (kickUsersS self s ks).1 ↔ (x ∈ s ∧ x ∉ ks) := by
  intro ks
  induction ks with
  | nil => intro s x; simp [kickUsersS]
  | cons k ks ih =>
    intro s x
    simp only [kickUsersS]
    rw [ih, kickOne_state_mem]
    simp only [List.mem_cons]
    constructor
    · rintro ⟨⟨hs, hne⟩, hnk⟩
      exact ⟨hs, by rintro (rfl | hk) <;> [exact hne rfl; exact hnk hk]⟩
    · rintro ⟨hs, hn⟩
      exact ⟨⟨hs, fun hx => hn (Or.inl hx)⟩, fun hk => hn (Or.inr hk)⟩

theorem kickOne_absent (self : String) (s : List String) (u : String)
    (h : u ∉ s) :
    (kickOne self s u).1 = s ∧ (kickOne self s u).2.filter effEv = [] := by
  unfold kickOne
  split_ifs with h1 h2
  · exact absurd (h1 ▸ h2) h
  · exact ⟨rfl, by simp [effEv]⟩
  · exact ⟨rfl, by simp [effEv]⟩

theorem kickUsersS_all_ineffective (self : String) :
    ∀ (ks s : List String), (∀ k ∈ ks, k ∉ s) →
      (kickUsersS self s ks).1 = s
        ∧ (kickUsersS self s ks).2.filter effEv = [] := by
  intro ks
  induction ks with
  | nil => intro s _; exact ⟨rfl, rfl⟩
  | cons k ks ih =>
    intro s hall
    have hk : k ∉ s := hall k (List.mem_cons_self k ks)
    have h1 := kickOne_absent self s k hk
    simp only [kickUsersS]
    rw [h1.1]
    have h2 := ih s (fun v hv => hall v (List.mem_cons_of_mem k hv))
    constructor
    · exact h2.1
    · rw [List.filter_append, h1.2, h2.2]
      rfl

theorem foldl_scan_filter (p : String → Bool) (l : List String) :
    ∀ acc, l.foldl (fun acc x => if p x then acc ++ [x] else acc) acc
      = acc ++ l.filter p := by
  induction l with
  | nil => intro acc; simp
  | cons x xs ih =>
    intro acc
    rw [List.foldl_cons]
    cases hp : p x with
    | true =>
      simp only [hp, if_true]
      rw [ih (acc ++ [x]), List.filter_cons_of_pos hp, List.append_assoc]
      rfl
    | false =>
      simp only [hp, Bool.false_eq_true, if_false]
      rw [ih acc, List.filter_cons_of_neg (by simp [hp])]

theorem mem_kickListAuthS (s managed : List String) (x : String) :
    x ∈ kickListAuthS s managed
      ↔ (x ∈ s ∧ managed ≠ [] ∧ x ∉ managed) := by
  unfold kickListAuthS
  rw [foldl_scan_filter, List.nil_append, List.mem_filter]
  constructor
  · rintro ⟨hs, hscan⟩
    have := (scanAbsent_spec (fun x => x) x managed).mp hscan
    exact ⟨hs, this.1, by simpa using this.2⟩
  · rintro ⟨hs, hne, hnm⟩
    exact ⟨hs, (scanAbsent_spec (fun x => x) x managed).mpr ⟨hne, by simpa using hnm⟩⟩

theorem additiveKickListS_self (n : List String) : additiveKickListS n n = [] := by
  unfold additiveKickListS
  rw [foldl_scan_filter, List.nil_append]
  apply List.filter_eq_nil_iff.mpr
  intro o ho hs
  exact ((scanAbsent_spec (fun x => x) o n).mp hs).2 (by simpa using ho)

theorem kick_guard (self : String) (s kl : List String) :
    (if 0 < kl.length then kickUsersS self s kl else (s, ([] : List MutEv)))
      = kickUsersS self s kl := by
  cases kl with
  | nil => simp [kickUsersS]
  | cons a as => simp

theorem updatePassS_eq (auth : Bool) (self : String)
    (managed oldE newE s : List String) :
    updatePassS auth self managed oldE newE s
      = ((inviteUsersS self
            (kickUsersS self s
              (if auth then kickListAuthS s managed
               else additiveKickListS oldE newE)).1 managed).1,
          (kickUsersS self s
              (if auth then kickListAuthS s managed
               else additiveKickListS oldE newE)).2
            ++ (inviteUsersS self
                  (kickUsersS self s
                    (if auth then kickListAuthS s managed
                     else additiveKickListS oldE newE)).1 managed).2) := by
  simp only [updatePassS, kick_guard]

theorem createPassS_false_eq (self : String) (managed s : List String) :
    createPassS false self managed s = inviteUsersS self s managed := by
  simp [createPassS]

theorem createPassS_true_eq (self : String) (managed s : List String) :
    createPassS true self managed s
      = ((kickUsersS self (inviteUsersS self s managed).1
            (kickListAuthS (inviteUsersS self s managed).1 managed)).1,
          (inviteUsersS self s managed).2
            ++ (kickUsersS self (inviteUsersS self s managed).1
                  (kickListAuthS (inviteUsersS self s managed).1 managed)).2) := by
  simp [createPassS]

/-- A second converge-update run with the same desired set performs no
effective remote mutation, from any starting state and under either
policy. -/
theorem update_twice_ineffective (auth : Bool) (self : String)
    (managed oldE newE s : List String) :
    ((updatePassS auth self managed newE newE
        (updatePassS auth self managed oldE newE s).1).2).filter effEv = [] := by
  rcases h1 : updatePassS auth self managed oldE newE s with ⟨s1, t1⟩
  show ((updatePassS auth self managed newE newE s1).2).filter effEv = []
  have heq := updatePassS_eq auth self managed oldE newE s
  rw [h1] at heq
  have hs1 : (inviteUsersS self
      (kickUsersS self s
        (if auth then kickListAuthS s managed
         else additiveKickListS oldE newE)).1 managed).1 = s1 :=
    (congrArg Prod.fst heq).symm
  have hmem1 : ∀ x, x ∈ s1 ↔
      ((x ∈ s ∧ x ∉ (if auth then kickListAuthS s managed
          else additiveKickListS oldE newE)) ∨ x ∈ managed) := by
    intro x
    rw [← hs1, inviteUsersS_state_mem, kickUsersS_state_mem]
  have hsub : ∀ u ∈ managed, u ∈ s1 := fun u hu => (hmem1 u).mpr (Or.inr hu)
  have hkl2 : ∀ k ∈ (if auth then kickListAuthS s1 managed
      else additiveKickListS newE newE), k ∉ s1 := by
    cases auth with
    | false =>
      intro k hk
      rw [if_neg (by simp)] at hk
      rw [additiveKickListS_self] at hk
      exact absurd hk (List.not_mem_nil k)
    | true =>
      intro k hk hks1
      rw [if_pos rfl] at hk
      have hc := (mem_kickListAuthS s1 managed k).mp hk
      rcases (hmem1 k).mp hks1 with ⟨hks, hknot⟩ | hkman
      · apply hknot
        rw [if_pos rfl]
        exact (mem_kickListAuthS s managed k).mpr ⟨hks, hc.2.1, hc.2.2⟩
      · exact hc.2.2 hkman
  have hkick2 := kickUsersS_all_ineffective self
    (if auth then kickListAuthS s1 managed else additiveKickListS newE newE)
    s1 hkl2
  have hinv2 := inviteUsersS_all_ineffective self managed s1 hsub
  rw [updatePassS_eq auth self managed newE newE s1, hkick2.1,
    List.filter_append, hkick2.2, hinv2.2]
  rfl

/-- A second converge-create run with the same desired set performs no
effective remote mutation, from any starting state and under either
policy. -/
theorem create_twice_ineffective (auth : Bool) (self : String)
    (managed s : List String) :
    ((createPassS auth self managed
        (createPassS auth self managed s).1).2).filter effEv = [] := by
  cases auth with
  | false =>
    rw [createPassS_false_eq, createPassS_false_eq]
    have hsub : ∀ u ∈ managed, u ∈ (inviteUsersS self s managed).1 :=
      fun u hu => (inviteUsersS_state_mem self managed s u).mpr (Or.inr hu)
    exact (inviteUsersS_all_ineffective self managed _ hsub).2
  | true =>
    rcases hc1 : createPassS true self managed s with ⟨s2, t2⟩
    show ((createPassS true self managed s2).2).filter effEv = []
    have heq := createPassS_true_eq self managed s
    rw [hc1] at heq
    have hs2 : (kickUsersS self (inviteUsersS self s managed).1
        (kickListAuthS (inviteUsersS self s managed).1 managed)).1 = s2 :=
      (congrArg Prod.fst heq).symm
    have hmem2 : ∀ x, x ∈ s2 ↔
        (x ∈ (inviteUsersS self s managed).1
          ∧ x ∉ kickListAuthS (inviteUsersS self s managed).1 managed) := by
      intro x
      rw [← hs2, kickUsersS_state_mem]
    have hsub : ∀ u ∈ managed, u ∈ s2 := by
      intro u hu
      refine (hmem2 u).mpr
        ⟨(inviteUsersS_state_mem self managed s u).mpr (Or.inr hu), ?_⟩
      intro hukl
      exact ((mem_kickListAuthS _ managed u).mp hukl).2.2 hu
    rw [createPassS_true_eq self managed s2]
    have hinv2 := inviteUsersS_all_ineffective self managed s2 hsub
    rw [hinv2.1]
    have hkl2 : ∀ k ∈ kickListAuthS s2 managed, k ∉ s2 := by
      intro k hk hks2
      have hc := (mem_kickListAuthS s2 managed k).mp hk
      have hx := (hmem2 k).mp hks2
      exact hx.2 ((mem_kickListAuthS _ managed k).mpr ⟨hx.1, hc.2.1, hc.2.2⟩)
    have hkick2 := kickUsersS_all_ineffective self (kickListAuthS s2 managed) s2 hkl2
    rw [List.filter_append, hinv2.2, hkick2.2]
    rfl

/-- A second converge-delete run over the same previous/new union
performs no effective remote mutation. -/
theorem delete_twice_ineffective (self : String) (s oldE newE : List String) :
    ((deletePassS self (deletePassS self s oldE newE).1 oldE newE).2).filter effEv
      = [] := by
  unfold deletePassS
  have hK : ∀ k ∈ deleteKeys oldE newE,
      k ∉ (kickUsersS self s (deleteKeys oldE newE)).1 := by
    intro k hk hks
    exact ((kickUsersS_state_mem self (deleteKeys oldE newE) s k).mp hks).2 hk
  exact (kickUsersS_all_ineffective self (deleteKeys oldE newE) _ hK).2

/-! ### Call-direction lemmas for the executor traces -/

theorem inviteOne_evs (self : String) (s : List String) (u : String) :
    ∀ e ∈ (inviteOne self s u).2, isRemoveEv e = false := by
  intro e he
  unfold inviteOne at he
  split_ifs at he <;>
    simp only [List.mem_cons, List.mem_singleton, List.not_mem_nil,
      or_false] at he <;>
    (rcases he with rfl | rfl <;> rfl)

theorem kickOne_evs (self : String) (s : List String) (u : String) :
    ∀ e ∈ (kickOne self s u).2, isAddEv e = false := by
  intro e he
  unfold kickOne at he
  split_ifs at he <;>
    simp only [List.mem_cons, List.mem_singleton, List.not_mem_nil,
      or_false] at he <;>
    (rcases he with rfl | rfl <;> rfl)

theorem inviteUsersS_evs (self : String) :
    ∀ (us s : List String), ∀ e ∈ (inviteUsersS self s us).2,
      isRemoveEv e = false := by
  intro us
  induction us with
  | nil => intro s e he; exact absurd he (List.not_mem_nil e)
  | cons u us ih =>
    intro s e he
    simp only [inviteUsersS] at he
    rcases List.mem_append.mp he with h | h
    · exact inviteOne_evs self s u e h
    · exact ih _ e h

theorem kickUsersS_evs (self : String) :
    ∀ (ks s : List String), ∀ e ∈ (kickUsersS self s ks).2,
      isAddEv e = false := by
  intro ks
  induction ks with
  | nil => intro s e he; exact absurd he (List.not_mem_nil e)
  | cons k ks ih =>
    intro s e he
    simp only [kickUsersS] at he
    rcases List.mem_append.mp he with h | h
    · exact kickOne_evs self s k e h
    · exact ih _ e h

theorem pairwise_left_false (f g : MutEv → Bool) (l : List MutEv)
    (h : ∀ a ∈ l, f a = false) :
    l.Pairwise (fun a b => f a = true → g b = false) := by
  induction l with
  | nil => exact List.Pairwise.nil
  | cons a t ih =>
    refine List.Pairwise.cons ?_ (ih (fun x hx => h x (List.mem_cons_of_mem a hx)))
    intro b _ hfa
    rw [h a (List.mem_cons_self a t)] at hfa
    exact absurd hfa (by simp)

theorem pairwise_right_false (f g : MutEv → Bool) (l : List MutEv)
    (h : ∀ b ∈ l, g b = false) :
    l.Pairwise (fun a b => f a = true → g b = false) := by
  induction l with
  | nil => exact List.Pairwise.nil
  | cons a t ih =>
    refine List.Pairwise.cons ?_ (ih (fun x hx => h x (List.mem_cons_of_mem a hx)))
    intro b hb _
    exact h b (List.mem_cons_of_mem a hb)

/-- "All adds are applied before any remove": no later call in the
trace is an add once a remove has occurred. -/
def addsThenRemoves (t : List MutEv) : Prop :=
  t.Pairwise (fun a b => isRemoveEv a = true → isAddEv b = false)

/-- "All removes are applied before any add": no later call in the
trace is a remove once an add has occurred. -/
def removesThenAdds (t : List MutEv) : Prop :=
  t.Pairwise (fun a b => isAddEv a = true → isRemoveEv b = false)

/-! ## The read pass (converge-read) of the final revision -/

/-- A remote API call, for classifying reads against mutations. -/
inductive ApiCall where
  | convInfoCall
  | usersInConvCall
  | userInfoCall (u : String)
  | inviteCall (u : String)
  | kickCall (u : String)
  | joinCall
  | leaveCall
deriving DecidableEq, Repr

/-- Calls that mutate remote state. -/
def isMutCall : ApiCall → Bool
  | .inviteCall _ => true
  | .kickCall _ => true
  | .joinCall => true
  | .leaveCall => true
  | _ => false

/-- The terraform resource state touched by the read pass. -/
structure RState where
  rid : String
  membersAttr : List String
  membersIds : List String
deriving DecidableEq, Repr

/-- The intruder loop of `resourceConversationMembersRead` (final
revision, lines 643-657): for each conversation member, break-scan the
resolved managed users; on a miss, fetch the member (one `GetUserInfo`
call) and collect it, aborting the read on a fetch failure. -/
def intrudersGo (lookup : String → Except String SlackUser)
    (mUsers : List SlackUser) :
    List String → Except String (List SlackUser) × List ApiCall
  | [] => (Except.ok [], [])
  | cm :: rest =>
    if scanAbsent SlackUser.ID cm mUsers 0 mUsers.length then
      match lookup cm with
      | .error e => (Except.error e, [ApiCall.userInfoCall cm])
      | .ok u =>
        let r := intrudersGo lookup mUsers rest
        (r.1.map (fun l => u :: l), ApiCall.userInfoCall cm :: r.2)
    else intrudersGo lookup mUsers rest

/-- Embedding of `resourceConversationMembersRead` (final revision,
lines 605-674).  A failing conversation lookup clears the resource id
and returns no error; otherwise the pass lists the conversation,
narrows the declared expressions to those presently members, sorts the
present ids, and, under authoritative policy, appends the intruders
(as `id:` expressions and raw ids) after the sort.  The source ignores
resolution errors in this pass (`mi, _ := getUserInfo(...)`), so the
resolver is taken total. -/
def readPass (convInfo : Except String Channel)
    (usersInConv : Except String (List String))
    (lookup : String → Except String SlackUser)
    (resolver : String → SlackUser) (auth : Bool)
    (d : RState) (members : List String) :
    RState × Option String × List ApiCall :=
  match convInfo with
  | .error _ => ({d with rid := ""}, none, [ApiCall.convInfoCall])
  | .ok _ =>
    match usersInConv with
    | .error e => (d, some e, [ApiCall.convInfoCall, ApiCall.usersInConvCall])
    | .ok conversationMembers =>
      let pres := members.foldl
        (fun (acc : List String × List String) m =>
          if (resolver m).ID ∈ conversationMembers
          then (acc.1 ++ [m], acc.2 ++ [(resolver m).ID]) else acc) ([], [])
      let presentIds := sortStrings pres.2
      if auth then
        match intrudersGo lookup (members.map resolver) conversationMembers with
        | (Except.error e, cs) =>
          (d, some e, [ApiCall.convInfoCall, ApiCall.usersInConvCall] ++ cs)
        | (Except.ok intr, cs) =>
          ({d with
              membersAttr := pres.1 ++ intr.map (fun u => "id:" ++ u.ID),
              membersIds := presentIds ++ intr.map SlackUser.ID},
            none, [ApiCall.convInfoCall, ApiCall.usersInConvCall] ++ cs)
      else
        ({d with membersAttr := pres.1, membersIds := presentIds},
          none, [ApiCall.convInfoCall, ApiCall.usersInConvCall])

/-- C6: when the conversation lookup of converge-read reports an error —
in particular `conversation_not_found` — the pass clears the resource id
(marks the resource absent) and returns no error; the absence condition
is never propagated to the caller as a failure. -/
theorem c6_read_absent_on_lookup_error (ec : String)
    (uic : Except String (List String)) (lookup : String → Except String SlackUser)
    (resolver : String → SlackUser) (auth : Bool) (d : RState)
    (mems : List String) :
    readPass (Except.error ec) uic lookup resolver auth d mems
      = ({d with rid := ""}, none, [ApiCall.convInfoCall]) := rfl

/-- The initial resource state used for concrete read evaluations. -/
def d0 : RState := ⟨"rid0", [], []⟩

/-- A total resolver mapping the declared expression id:U3 to user U3. -/
def resolver0 : String → SlackUser :=
  fun e => if e = "id:U3" then ⟨"U3", "u3"⟩ else ⟨"ZZ", "zz"⟩

/-- C7 (failing evaluation): a successful authoritative read with
declared member id:U3 present and non-declared member U1 in the
conversation stores members_ids = [U3, U1]: the present declared ids
are sorted first and the intruder ids are appended after the sort, so
the stored sequence is not in ascending order. -/
theorem c7_unsorted_members_ids :
    ((readPass (Except.ok ⟨"C1", "general"⟩) (Except.ok ["U1", "U3"]) lookupOk
        resolver0 true d0 ["id:U3"]).1).membersIds = ["U3", "U1"]
    ∧ ¬ sortedAsc ["U3", "U1"] := by
  constructor
  · rfl
  · intro h
    have hle := (List.sorted_cons.mp h).1 "U1" (by simp)
    revert hle
    decide

/-! ## C4 and C5: idempotence and mutation ordering -/

theorem intrudersGo_calls (lookup : String → Except String SlackUser)
    (mUsers : List SlackUser) :
    ∀ (cms : List String), ∀ c ∈ (intrudersGo lookup mUsers cms).2,
      isMutCall c = false := by
  intro cms
  induction cms with
  | nil => intro c hc; exact absurd hc (List.not_mem_nil c)
  | cons cm rest ih =>
    intro c hc
    by_cases hscan : scanAbsent SlackUser.ID cm mUsers 0 mUsers.length = true
    · cases hl : lookup cm with
      | error e =>
        have hred : intrudersGo lookup mUsers (cm :: rest)
            = (Except.error e, [ApiCall.userInfoCall cm]) := by
          simp only [intrudersGo]
          rw [if_pos hscan, hl]
        rw [hred] at hc
        have := List.mem_singleton.mp hc
        subst this
        rfl
      | ok u =>
        have hred : intrudersGo lookup mUsers (cm :: rest)
            = ((intrudersGo lookup mUsers rest).1.map (fun l => u :: l),
                ApiCall.userInfoCall cm :: (intrudersGo lookup mUsers rest).2) := by
          simp only [intrudersGo]
          rw [if_pos hscan, hl]
        rw [hred] at hc
        rcases List.mem_cons.mp hc with rfl | hc2
        · rfl
        · exact ih c hc2
    · have hred : intrudersGo lookup mUsers (cm :: rest)
          = intrudersGo lookup mUsers rest := by
        simp only [intrudersGo]
        rw [if_neg hscan]
      rw [hred] at hc
      exact ih c hc

/-- The read pass issues no mutating remote call, whatever the oracles
answer. -/
theorem readPass_no_mutation_calls (convInfo : Except String Channel)
    (uic : Except String (List String))
    (lookup : String → Except String SlackUser) (resolver : String → SlackUser)
    (auth : Bool) (d : RState) (mems : List String) :
    ((readPass convInfo uic lookup resolver auth d mems).2.2).filter isMutCall
      = [] := by
  cases convInfo with
  | error e => rfl
  | ok c =>
    cases uic with
    | error e => rfl
    | ok cms =>
      cases auth with
      | false => rfl
      | true =>
        have hcalls := intrudersGo_calls lookup (mems.map resolver) cms
        show (((readPass (Except.ok c) (Except.ok cms) lookup resolver true d
            mems).2.2)).filter isMutCall = []
        rcases hI : intrudersGo lookup (mems.map resolver) cms with ⟨r, cs⟩
        rw [hI] at hcalls
        have hcs : cs.filter isMutCall = [] :=
          List.filter_eq_nil_iff.mpr (fun c2 hc2 => by simp [hcalls c2 hc2])
        have hred : (readPass (Except.ok c) (Except.ok cms) lookup resolver true d
            mems).2.2
            = [ApiCall.convInfoCall, ApiCall.usersInConvCall] ++ cs := by
          simp only [readPass]
          rw [hI]
          cases r <;> rfl
        rw [hred, List.filter_append, hcs]
        rfl

/-- C4: every verb is idempotent at the level of remote mutations.
Running converge-update twice with the same desired set (under either
policy, in particular authoritative), converge-create twice, or
converge-delete twice leaves no effective mutation in the second run's
trace — every add and remove of the second run collapses to the
absorbed already-satisfied case — and converge-read never issues a
mutating call at all. -/
theorem c4_verbs_idempotent (auth : Bool) (self : String)
    (managed oldE newE s : List String)
    (convInfo : Except String Channel) (uic : Except String (List String))
    (lookup : String → Except String SlackUser) (resolver : String → SlackUser)
    (d : RState) (mems : List String) :
    ((updatePassS auth self managed newE newE
        (updatePassS auth self managed oldE newE s).1).2).filter effEv = []
    ∧ ((createPassS auth self managed
        (createPassS auth self managed s).1).2).filter effEv = []
    ∧ ((deletePassS self (deletePassS self s oldE newE).1 oldE newE).2).filter
        effEv = []
    ∧ ((readPass convInfo uic lookup resolver auth d mems).2.2).filter isMutCall
        = [] :=
  ⟨update_twice_ineffective auth self managed oldE newE s,
   create_twice_ineffective auth self managed s,
   delete_twice_ineffective self s oldE newE,
   readPass_no_mutation_calls convInfo uic lookup resolver auth d mems⟩

/-- C5 (counterexample): in an update pass under authoritative policy
with current member U3, desired member U1 and acting principal S0, the
call trace is [kick U3, invite U1] — a remove is applied before an add,
so the claimed adds-before-removes ordering fails for the update verb. -/
theorem c5_order_counterexample :
    (updatePassS true "S0" ["U1"] ["e1"] ["e1"] ["U3"]).2
        = [MutEv.kick "U3" true, MutEv.invite "U1" true]
    ∧ ¬ addsThenRemoves [MutEv.kick "U3" true, MutEv.invite "U1" true] := by
  constructor
  · rfl
  · intro h
    have := (List.pairwise_cons.mp h).1 (MutEv.invite "U1" true) (by simp) rfl
    exact absurd this (by simp [isAddEv])

/-- C5 (amended): within an update pass of the final revision all
remove operations are applied before any add operation (the converse of
the claimed order), and within a create pass all add operations are
applied before any remove operation. -/
theorem c5_order_amended (auth : Bool) (self : String)
    (managed oldE newE s : List String) :
    removesThenAdds ((updatePassS auth self managed oldE newE s).2)
    ∧ addsThenRemoves ((createPassS auth self managed s).2) := by
  constructor
  · rw [updatePassS_eq]
    unfold removesThenAdds
    rw [List.pairwise_append]
    refine ⟨pairwise_left_false _ _ _ (kickUsersS_evs self _ _),
      pairwise_right_false _ _ _ (inviteUsersS_evs self _ _), ?_⟩
    intro a _ b hb _
    exact inviteUsersS_evs self _ _ b hb
  · cases auth with
    | false =>
      rw [createPassS_false_eq]
      exact pairwise_left_false _ _ _ (inviteUsersS_evs self _ _)
    | true =>
      rw [createPassS_true_eq]
      unfold addsThenRemoves
      rw [List.pairwise_append]
      refine ⟨pairwise_left_false _ _ _ (inviteUsersS_evs self _ _),
        pairwise_right_false _ _ _ (kickUsersS_evs self _ _), ?_⟩
      intro a _ b hb _
      exact kickUsersS_evs self _ _ b hb

/-! ## C8: the cant_invite_self substitution of inviteUsers -/

/-- A remote call made by the invite executor. -/
inductive Call where
  | inviteC (u : String)
  | joinC
deriving DecidableEq, Repr

/-- Embedding of `inviteUsers` (resource_conversation_members.go, final
revision, lines 561-603) at the call level: `inviteRes u` is the error
returned by `InviteUsersToConversation(c.ID, u.ID)` (`none` = success),
`joinRes` the error returned by `JoinConversation(c.ID)`.  Each managed
user gets exactly one invite call; `cant_invite_self` triggers one join
call whose failure is fatal; `already_in_channel` is absorbed; any
other error aborts the pass. -/
def inviteUsersT (inviteRes : String → Option String) (joinRes : Option String) :
    List String → List Call × Option String
  | [] => ([], none)
  | u :: rest =>
    match inviteRes u with
    | none =>
      let q := inviteUsersT inviteRes joinRes rest
      (Call.inviteC u :: q.1, q.2)
    | some ec =>
      if ec = "cant_invite_self" then
        match joinRes with
        | none =>
          let q := inviteUsersT inviteRes joinRes rest
          (Call.inviteC u :: Call.joinC :: q.1, q.2)
        | some je =>
          ([Call.inviteC u, Call.joinC],
            some ("could not self-join conversation: " ++ je))
      else if ec = "already_in_channel" then
        let q := inviteUsersT inviteRes joinRes rest
        (Call.inviteC u :: q.1, q.2)
      else
        ([Call.inviteC u],
          some ("could not invite userID " ++ u ++ " to conversation: " ++ ec))

theorem inviteUsersT_ok (ir : String → Option String) (jr : Option String)
    (u : String) (rest : List String) (h : ir u = none) :
    inviteUsersT ir jr (u :: rest)
      = (Call.inviteC u :: (inviteUsersT ir jr rest).1,
          (inviteUsersT ir jr rest).2) := by
  simp only [inviteUsersT, h]

theorem inviteUsersT_self_ok (ir : String → Option String) (jr : Option String)
    (u : String) (rest : List String)
    (h : ir u = some "cant_invite_self") (hj : jr = none) :
    inviteUsersT ir jr (u :: rest)
      = (Call.inviteC u :: Call.joinC :: (inviteUsersT ir jr rest).1,
          (inviteUsersT ir jr rest).2) := by
  simp only [inviteUsersT, h, hj]
  simp

theorem inviteUsersT_self_fail (ir : String → Option String) (jr : Option String)
    (u : String) (rest : List String) (je : String)
    (h : ir u = some "cant_invite_self") (hj : jr = some je) :
    inviteUsersT ir jr (u :: rest)
      = ([Call.inviteC u, Call.joinC],
          some ("could not self-join conversation: " ++ je)) := by
  simp only [inviteUsersT, h, hj]
  simp

theorem inviteUsersT_already (ir : String → Option String) (jr : Option String)
    (u : String) (rest : List String) (h : ir u = some "already_in_channel") :
    inviteUsersT ir jr (u :: rest)
      = (Call.inviteC u :: (inviteUsersT ir jr rest).1,
          (inviteUsersT ir jr rest).2) := by
  simp only [inviteUsersT, h]
  simp

theorem inviteUsersT_fatal (ir : String → Option String) (jr : Option String)
    (u : String) (rest : List String) (ec : String) (h : ir u = some ec)
    (h1 : ec ≠ "cant_invite_self") (h2 : ec ≠ "already_in_channel") :
    inviteUsersT ir jr (u :: rest)
      = ([Call.inviteC u],
          some ("could not invite userID " ++ u ++ " to conversation: " ++ ec)) := by
  simp only [inviteUsersT, h]
  simp [h1, h2]

/-- Every invite call in the trace is for a user of the input list: no
user is ever retried with a second invite call. -/
theorem inviteC_mem_trace (ir : String → Option String) (jr : Option String) :
    ∀ (us : List String) (v : String),
      Call.inviteC v ∈ (inviteUsersT ir jr us).1 → v ∈ us := by
  intro us
  induction us with
  | nil =>
    intro v hv
    simp [inviteUsersT] at hv
  | cons u rest ih =>
    intro v hv
    cases hiu : ir u with
    | none =>
      rw [inviteUsersT_ok ir jr u rest hiu] at hv
      rcases List.mem_cons.mp hv with heq | hv2
      · injection heq with h3
        subst h3
        exact List.mem_cons_self _ _
      · exact List.mem_cons_of_mem u (ih v hv2)
    | some ec =>
      by_cases hec1 : ec = "cant_invite_self"
      · subst hec1
        cases hjr : jr with
        | none =>
          rw [inviteUsersT_self_ok ir jr u rest hiu hjr] at hv
          rcases List.mem_cons.mp hv with heq | hv2
          · injection heq with h3
            subst h3
            exact List.mem_cons_self _ _
          · rcases List.mem_cons.mp hv2 with heq2 | hv3
            · exact absurd heq2 (by simp)
            · exact List.mem_cons_of_mem u (ih v hv3)
        | some je =>
          rw [inviteUsersT_self_fail ir jr u rest je hiu hjr] at hv
          rcases List.mem_cons.mp hv with heq | hv2
          · injection heq with h3
            subst h3
            exact List.mem_cons_self _ _
          · exact absurd (List.mem_singleton.mp hv2) (by simp)
      · by_cases hec2 : ec = "already_in_channel"
        · subst hec2
          rw [inviteUsersT_already ir jr u rest hiu] at hv
          rcases List.mem_cons.mp hv with heq | hv2
          · injection heq with h3
            subst h3
            exact List.mem_cons_self _ _
          · exact List.mem_cons_of_mem u (ih v hv2)
        · rw [inviteUsersT_fatal ir jr u rest ec hiu hec1 hec2] at hv
          injection List.mem_singleton.mp hv with h3
          subst h3
          exact List.mem_cons_self _ _

/-- No join call appears in the trace of users whose invites never
return `cant_invite_self`. -/
theorem joinC_not_mem_trace (ir : String → Option String) (jr : Option String) :
    ∀ us : List String, (∀ v ∈ us, ir v ≠ some "cant_invite_self") →
      Call.joinC ∉ (inviteUsersT ir jr us).1 := by
  intro us
  induction us with
  | nil =>
    intro _ hmem
    simp [inviteUsersT] at hmem
  | cons u rest ih =>
    intro hall hmem
    cases hiu : ir u with
    | none =>
      rw [inviteUsersT_ok ir jr u rest hiu] at hmem
      rcases List.mem_cons.mp hmem with heq | h2
      · exact absurd heq (by simp)
      · exact ih (fun v hv => hall v (List.mem_cons_of_mem u hv)) h2
    | some ec =>
      by_cases hec1 : ec = "cant_invite_self"
      · exact absurd (hec1 ▸ hiu) (hall u (List.mem_cons_self u rest))
      · by_cases hec2 : ec = "already_in_channel"
        · subst hec2
          rw [inviteUsersT_already ir jr u rest hiu] at hmem
          rcases List.mem_cons.mp hmem with heq | h2
          · exact absurd heq (by simp)
          · exact ih (fun v hv => hall v (List.mem_cons_of_mem u hv)) h2
        · rw [inviteUsersT_fatal ir jr u rest ec hiu hec1 hec2] at hmem
          exact absurd (List.mem_singleton.mp hmem) (by simp)

/-- C8: when the per-identifier add call for `u` fails with
`cant_invite_self`, the executor issues the join call right after that
single invite call and continues with the remaining users when the join
succeeds; when the join itself fails, the pass aborts fatally with
exactly the invite and join calls made; the add call for `u` is never
retried in the pass (its invite call appears exactly once in the
trace), and the join for `u` is issued exactly once. -/
theorem c8_self_invite_substitution (ir : String → Option String)
    (jr : Option String) (u : String) (rest : List String)
    (h : ir u = some "cant_invite_self") :
    (jr = none →
      inviteUsersT ir jr (u :: rest)
        = (Call.inviteC u :: Call.joinC :: (inviteUsersT ir jr rest).1,
            (inviteUsersT ir jr rest).2))
    ∧ (∀ je, jr = some je →
      inviteUsersT ir jr (u :: rest)
        = ([Call.inviteC u, Call.joinC],
            some ("could not self-join conversation: " ++ je)))
    ∧ (u ∉ rest →
        (inviteUsersT ir jr (u :: rest)).1.count (Call.inviteC u) = 1)
    ∧ (jr = none → (∀ v ∈ rest, ir v ≠ some "cant_invite_self") →
        (inviteUsersT ir jr (u :: rest)).1.count Call.joinC = 1) := by
  refine ⟨fun hj => inviteUsersT_self_ok ir jr u rest h hj,
    fun je hj => inviteUsersT_self_fail ir jr u rest je h hj, ?_, ?_⟩
  · intro hnotin
    cases hjr : jr with
    | none =>
      rw [inviteUsersT_self_ok ir none u rest h rfl]
      have hT : Call.inviteC u ∉ (inviteUsersT ir none rest).1 :=
        fun hmem => hnotin (inviteC_mem_trace ir none rest u hmem)
      simp [List.count_cons, List.count_eq_zero.mpr hT]
    | some je =>
      rw [inviteUsersT_self_fail ir (some je) u rest je h rfl]
      simp [List.count_cons]
  · intro hjr hnone
    subst hjr
    rw [inviteUsersT_self_ok ir none u rest h rfl]
    have hT : Call.joinC ∉ (inviteUsersT ir none rest).1 :=
      joinC_not_mem_trace ir none rest hnone
    simp [List.count_cons, List.count_eq_zero.mpr hT]

/-- The invite-response oracle used to witness C8: the acting principal
answers `cant_invite_self`, every other user succeeds. -/
def irw : String → Option String :=
  fun v => if v = "SELF" then some "cant_invite_self" else none

/-- Witness for C8: the acting principal followed by user U2, with a
succeeding join: the trace opens with one invite for SELF and one join,
and processing continues with U2. -/
theorem c8_self_invite_substitution_witness :
    (irw "SELF" = some "cant_invite_self")
    ∧ inviteUsersT irw none ("SELF" :: ["U2"])
        = (Call.inviteC "SELF" :: Call.joinC :: (inviteUsersT irw none ["U2"]).1,
            (inviteUsersT irw none ["U2"]).2) :=
  ⟨rfl, (c8_self_invite_substitution irw none "SELF" ["U2"] rfl).1 rfl⟩

end Slack
